import Mathlib

/-!
Verification development for the Patchwork Gaussian Process core
(`include/albatross/src/models/patchwork_gp.hpp`) and the Distribution
type (`core/distribution.h`) of the albatross repository.

The C++ code is shallowly embedded:
  * `GroupFeature` / `BoundaryFeature` and the raw feature type become the
    inductive `PFeature`; the overload-resolved covariance dispatch
    (`PatchworkCallerBase` wrapped in `SymmetricCaller`, falling back to the
    `DefaultCaller`) becomes `patchworkCall`, which returns `none` exactly for
    the argument combinations for which no overload exists (a call that does
    not compile in C++).
  * `Eigen::MatrixXd` becomes `Mat`: a dynamically sized matrix whose entry
    function is zero outside its bounds.  Eigen's LDLT factorization objects
    (values with a `.solve` method) become `Factorization`, carrying the
    linear action of the inverse.
  * `Grouped<Key, Value>` becomes an association list wrapper `Grouped`;
    `std::map::at` (which throws on a missing key) is modelled by the
    `Option`-valued `Grouped.get?`, and C++ `assert` failures / thrown
    exceptions are modelled by `none` results.
  * doubles become real numbers; the C++ `NAN` result of
    `Distribution::get_diagonal` is modelled by `none : Option ℝ`.
-/

/-- A feature argument of the extended covariance evaluator: either a raw
feature, a `GroupFeature` (raw feature tagged with its group key), or a
`BoundaryFeature` (raw feature tagged with an ordered pair of group keys). -/
inductive PFeature (K F : Type) where
  | raw : F → PFeature K F
  | group : K → F → PFeature K F
  | boundary : K → K → F → PFeature K F

/-- Embedding of `BoundaryFeature<GroupKey, FeatureType>`: a pseudo
observation of the difference between the predictions of model `lhs` and
model `rhs` at `feature` (patchwork_gp.hpp lines 108-121). -/
structure BoundaryFeature (K F : Type) where
  lhs : K
  rhs : K
  feature : F
  deriving DecidableEq

/-- Embedding of `GroupFeature<GroupKey, FeatureType>` (patchwork_gp.hpp
lines 152-162). -/
structure GroupFeature (K F : Type) where
  key : K
  feature : F
  deriving DecidableEq

/-- `as_boundary_feature` (patchwork_gp.hpp lines 123-132): constructs a
`BoundaryFeature` from two keys and a raw feature.  Note the constructor
performs no check whatsoever on the two keys. -/
def asBoundaryFeature {K F : Type} (lhs rhs : K) (feature : F) : BoundaryFeature K F :=
  ⟨lhs, rhs, feature⟩

/-- `as_boundary_features` (patchwork_gp.hpp lines 134-146): one
`BoundaryFeature` per raw feature, all with the same ordered key pair. -/
def asBoundaryFeatures {K F : Type} (lhs rhs : K) (features : List F) :
    List (BoundaryFeature K F) :=
  features.map (asBoundaryFeature lhs rhs)

/-- The ordered pairs `(groups[i], groups[j])` with `i < j`, in the order the
double loop of `build_boundary_features` (patchwork_gp.hpp lines 413-423)
visits them. -/
def pairsAfter {K : Type} : List K → List (K × K)
  | [] => []
  | g :: rest => rest.map (fun h => (g, h)) ++ pairsAfter rest

/-- The list of boundary features accumulated by the loop of
`build_boundary_features` (patchwork_gp.hpp lines 412-423), before the final
`assert`.  Empty per-pair results contribute nothing, exactly as the
`size() > 0` guard in the source. -/
def buildBoundaryFeaturesList {K F : Type} (boundaryFn : K → K → List F)
    (groups : List K) : List (BoundaryFeature K F) :=
  (pairsAfter groups).flatMap fun p => asBoundaryFeatures p.1 p.2 (boundaryFn p.1 p.2)

/-- `build_boundary_features` (patchwork_gp.hpp lines 404-426).  The final
`assert(boundary_features.size() > 0)` is modelled by returning `none` when
the accumulated list is empty. -/
def buildBoundaryFeatures {K F : Type} (boundaryFn : K → K → List F)
    (groups : List K) : Option (List (BoundaryFeature K F)) :=
  if (buildBoundaryFeaturesList boundaryFn groups).length > 0 then
    some (buildBoundaryFeaturesList boundaryFn groups)
  else none

/-- The extended covariance evaluator
`PatchworkCaller = SymmetricCaller<PatchworkCallerBase<DefaultCaller>>`
(patchwork_gp.hpp lines 206-266) over a base covariance `k` on raw features.

Each equation mirrors one overload of `PatchworkCallerBase::call`:
  * raw/raw: the SFINAE fallback forwards to the `DefaultCaller`, i.e. `k`;
  * group/group (lines 215-225): `k` on the raw features when the keys are
    equal, `0` otherwise;
  * group/boundary (lines 227-239): `+k` when the group key equals the
    boundary's `lhs`, `-k` when it equals the boundary's `rhs`, else `0`;
  * boundary/group: no overload exists, so the `SymmetricCaller` swaps the
    arguments and uses the group/boundary overload;
  * boundary/boundary (lines 241-260): the five-way `if` chain, verbatim;
  * raw against a tagged feature (either order): no overload applies even
    after the symmetric swap, and the base covariance cannot be called on a
    tagged type, so the call does not compile; modelled by `none`. -/
def patchworkCall {K F : Type} [DecidableEq K] (k : F → F → ℝ) :
    PFeature K F → PFeature K F → Option ℝ
  | PFeature.raw fx, PFeature.raw fy => some (k fx fy)
  | PFeature.group kx fx, PFeature.group ky fy =>
      some (if kx = ky then k fx fy else 0)
  | PFeature.group kx fx, PFeature.boundary yl yr fy =>
      some (if kx = yl then k fx fy else if kx = yr then -(k fx fy) else 0)
  | PFeature.boundary xl xr fx, PFeature.group ky fy =>
      some (if ky = xl then k fy fx else if ky = xr then -(k fy fx) else 0)
  | PFeature.boundary xl xr fx, PFeature.boundary yl yr fy =>
      some (if xl = yl ∧ xr = yr then 2 * k fx fy
            else if xl = yl ∧ xr ≠ yr then k fx fy
            else if xl ≠ yl ∧ xr = yr then k fx fy
            else if xl = yr ∧ xr ≠ yl then -(k fx fy)
            else if xl ≠ yr ∧ xr = yl then -(k fx fy)
            else 0)
  | PFeature.raw _, PFeature.group _ _ => none
  | PFeature.raw _, PFeature.boundary _ _ _ => none
  | PFeature.group _ _, PFeature.raw _ => none
  | PFeature.boundary _ _ _, PFeature.raw _ => none

/-- Embedding of `Eigen::MatrixXd`: a dynamically sized real matrix.  The
entry function is total; entries outside the `rows × cols` range are zero,
which every operation below preserves. -/
structure Mat where
  rows : ℕ
  cols : ℕ
  entry : ℕ → ℕ → ℝ
  valid : ∀ i j, rows ≤ i ∨ cols ≤ j → entry i j = 0

/-- Builds a matrix from a size and an entry function, zeroing everything
outside the range. -/
def Mat.of (r c : ℕ) (f : ℕ → ℕ → ℝ) : Mat where
  rows := r
  cols := c
  entry := fun i j => if i < r ∧ j < c then f i j else 0
  valid := by
    intro i j h
    have hn : ¬(i < r ∧ j < c) := by omega
    simp [hn]

instance : Inhabited Mat := ⟨Mat.of 0 0 fun _ _ => 0⟩

instance : Zero Mat := ⟨Mat.of 0 0 fun _ _ => 0⟩

/-- Matrix addition; Eigen asserts that both operands have identical sizes,
so the `max` in the result size is only ever exercised on equal sizes by the
algorithm (all uses below carry equal-shape hypotheses). -/
def Mat.add (a b : Mat) : Mat where
  rows := max a.rows b.rows
  cols := max a.cols b.cols
  entry := fun i j => a.entry i j + b.entry i j
  valid := by
    intro i j h
    have ha : a.entry i j = 0 := by
      refine a.valid i j ?_
      rcases h with h | h
      · exact Or.inl (le_trans (Nat.le_max_left _ _) h)
      · exact Or.inr (le_trans (Nat.le_max_left _ _) h)
    have hb : b.entry i j = 0 := by
      refine b.valid i j ?_
      rcases h with h | h
      · exact Or.inl (le_trans (Nat.le_max_right _ _) h)
      · exact Or.inr (le_trans (Nat.le_max_right _ _) h)
    simp [ha, hb]

instance : Add Mat := ⟨Mat.add⟩

/-- Matrix subtraction (same size discipline as `Mat.add`). -/
def Mat.sub (a b : Mat) : Mat where
  rows := max a.rows b.rows
  cols := max a.cols b.cols
  entry := fun i j => a.entry i j - b.entry i j
  valid := by
    intro i j h
    have ha : a.entry i j = 0 := by
      refine a.valid i j ?_
      rcases h with h | h
      · exact Or.inl (le_trans (Nat.le_max_left _ _) h)
      · exact Or.inr (le_trans (Nat.le_max_left _ _) h)
    have hb : b.entry i j = 0 := by
      refine b.valid i j ?_
      rcases h with h | h
      · exact Or.inl (le_trans (Nat.le_max_right _ _) h)
      · exact Or.inr (le_trans (Nat.le_max_right _ _) h)
    simp [ha, hb]

instance : Sub Mat := ⟨Mat.sub⟩

/-- Matrix product (`x * y` on `Eigen::MatrixXd`). -/
def Mat.mul (a b : Mat) : Mat where
  rows := a.rows
  cols := b.cols
  entry := fun i j => ∑ t ∈ Finset.range a.cols, a.entry i t * b.entry t j
  valid := by
    intro i j h
    rcases h with h | h
    · exact Finset.sum_eq_zero fun t _ => by rw [a.valid i t (Or.inl h), zero_mul]
    · exact Finset.sum_eq_zero fun t _ => by rw [b.valid t j (Or.inr h), mul_zero]

/-- Matrix transpose. -/
def Mat.transpose (a : Mat) : Mat where
  rows := a.cols
  cols := a.rows
  entry := fun i j => a.entry j i
  valid := by
    intro i j h
    exact a.valid j i h.symm

/-- The `n × n` identity matrix. -/
def Mat.identity (n : ℕ) : Mat := Mat.of n n fun i j => if i = j then 1 else 0

/-- Total number of coefficients, as Eigen's `size()` (`rows()*cols()`). -/
def Mat.size (m : Mat) : ℕ := m.rows * m.cols

/-- The `i`-th diagonal coefficient, as `covariance.diagonal()[i]`. -/
def Mat.diagonal (m : Mat) (i : ℕ) : ℝ := m.entry i i

/-- Sum of a list of matrices (used to state the specification of
`block_accumulate`). -/
def Mat.listSum (l : List Mat) : Mat := l.foldr (fun a b => a + b) 0

/-- Embedding of a precomputed factorization of an invertible matrix (an
Eigen LDLT object, as stored in `fit.train_covariance` or produced by
`.ldlt()`): it is identified with the linear action of the inverse,
`solveMat`. -/
structure Factorization where
  solveMat : Mat

instance : Inhabited Factorization := ⟨⟨Mat.of 0 0 fun _ _ => 0⟩⟩

/-- `fact.solve rhs` models `ldlt.solve(rhs)`, i.e. multiplication by the
inverse of the factored matrix. -/
def Factorization.solve (s : Factorization) (x : Mat) : Mat := s.solveMat.mul x

/-- Embedding of `albatross::Grouped<Key, Value>`: an ordered mapping from
group keys to values, represented by its association list (key order is the
`std::map` iteration order). -/
structure Grouped (K V : Type) where
  toList : List (K × V)

/-- Lookup in an association list: the value at the first occurrence of the
key, `none` when absent. -/
def lookupList {K V : Type} [DecidableEq K] : List (K × V) → K → Option V
  | [], _ => none
  | kv :: rest, k => if kv.1 = k then some kv.2 else lookupList rest k

namespace Grouped

variable {K V W : Type}

/-- `keys()`: the keys in container order. -/
def keys (g : Grouped K V) : List K := g.toList.map Prod.fst

/-- `values()`: the values in container order. -/
def values (g : Grouped K V) : List V := g.toList.map Prod.snd

/-- `size()`. -/
def size (g : Grouped K V) : ℕ := g.toList.length

/-- `at(key)` as an `Option` (`std::map::at` throws on a missing key, which
is modelled by `none`). -/
def get? [DecidableEq K] (g : Grouped K V) (k : K) : Option V :=
  lookupList g.toList k

/-- `at(key)` under the assumption that the key is present (the `default`
branch is unreachable whenever `k` is one of the keys). -/
def getD [DecidableEq K] [Inhabited V] (g : Grouped K V) (k : K) : V :=
  (g.get? k).getD default

/-- `apply(f)`: maps `f` over the values (the two-argument C++ overload,
which also receives the key), keeping the keys. -/
def apply (g : Grouped K V) (f : K → V → W) : Grouped K W :=
  ⟨g.toList.map fun kv => (kv.1, f kv.1 kv.2)⟩

end Grouped

/-- `block_accumulate` (patchwork_gp.hpp lines 274-306): the sum of
`f(lhs.at(key), rhs.at(key))` over the keys of `lhs`, computed as the source
does (first key's result, then `+=` for the rest).  The three C++ `assert`s
(equal sizes, nonempty, and `map_contains(rhs, key)` inside `one_group`) are
modelled by returning `none` when violated. -/
def blockAccumulate {K X Y : Type} [DecidableEq K] [Inhabited X] [Inhabited Y]
    (lhs : Grouped K X) (rhs : Grouped K Y) (f : X → Y → Mat) : Option Mat :=
  if lhs.size = rhs.size ∧ 0 < lhs.size ∧
      (lhs.toList.all fun kv => (rhs.get? kv.1).isSome) = true then
    lhs.keys.head?.map fun k0 =>
      lhs.keys.tail.foldl (fun acc k => acc + f (lhs.getD k) (rhs.getD k))
        (f (lhs.getD k0) (rhs.getD k0))
  else none

/-- `block_product` (patchwork_gp.hpp lines 308-330): `block_accumulate`
specialised to the matrix product. -/
def blockProduct {K : Type} [DecidableEq K] (lhs rhs : Grouped K Mat) : Option Mat :=
  blockAccumulate lhs rhs fun x y => x.mul y

/-- `block_inner_product` (patchwork_gp.hpp lines 332-354): `block_accumulate`
specialised to `xᵀ·y`. -/
def blockInnerProduct {K : Type} [DecidableEq K] (lhs rhs : Grouped K Mat) : Option Mat :=
  blockAccumulate lhs rhs fun x y => x.transpose.mul y

/-- `block_solve` (patchwork_gp.hpp lines 356-377):
`rhs.apply([&](key, x) { return lhs.at(key).solve(x); })`.  The only failure
mode in the source is `lhs.at(key)` throwing when a key of `rhs` is absent
from `lhs`; that is modelled by the up-front `all` check (the iteration
visits every key of `rhs`, so the lazy throw and the up-front check fail on
the same inputs).  No other validation is performed. -/
def blockSolve {K : Type} [DecidableEq K] (lhs : Grouped K Factorization)
    (rhs : Grouped K Mat) : Option (Grouped K Mat) :=
  if (rhs.toList.all fun kv => (lhs.get? kv.1).isSome) = true then
    some (rhs.apply fun k v => (lhs.getD k).solve v)
  else none

/-- A joint Gaussian posterior: mean vector (a column matrix) and dense
covariance matrix (`JointDistribution`). -/
structure JointDistribution where
  mean : Mat
  cov : Mat

/-- The interface of the external single-group GP model consumed by the
patchwork predict algorithm: stored training features
(`fit_model.get_fit().train_features`), the cached training-covariance
factorization (`fit_model.get_fit().train_covariance`), and joint prediction
(`fit_model.predict(features).joint()`). -/
structure GPInterface (F M : Type) where
  trainFeatures : M → List F
  trainCovariance : M → Factorization
  predict : M → List F → JointDistribution

/-- The caller-supplied grouping-function bundle (`PatchworkFunctions`):
group assignment, boundary construction between two groups, and
nearest-existing-group lookup. -/
structure PatchworkFunctions (K F : Type) where
  grouper : F → K
  boundary : K → K → List F
  nearestGroup : List K → K → K

/-- Modelled from the spec: albatross's `group_by` / `GroupBy` machinery is
not under `src/`; per §3 a `Grouped` is an ordered mapping from GroupKey to
Value, and per §4.4 items are partitioned by the grouping-function output.
`addToGroup` inserts one item into the ordered association list, appending to
its group's list when the key exists and keeping keys sorted otherwise. -/
def addToGroup {K α : Type} [LinearOrder K] :
    List (K × List α) → K → α → List (K × List α)
  | [], k, x => [(k, [x])]
  | kv :: rest, k, x =>
      if k = kv.1 then (kv.1, kv.2 ++ [x]) :: rest
      else if k < kv.1 then (k, [x]) :: kv :: rest
      else kv :: addToGroup rest k x

/-- Modelled from the spec: `group_by(xs, key)` partitions `xs` by the key
function into an ordered mapping, each group keeping its items in input
order. -/
def groupByKey {K α : Type} [LinearOrder K] (key : α → K) (xs : List α) :
    Grouped K (List α) :=
  ⟨xs.foldl (fun l x => addToGroup l (key x) x) []⟩

/-- Modelled from the spec: `compute_covariance_matrix(caller, xs, ys)`
(albatross core, not under `src/`) fills the dense matrix of pairwise
covariance evaluations `caller(xs[i], ys[j])`. -/
def computeCovarianceMatrix {α β : Type} (caller : α → β → ℝ) (xs : List α)
    (ys : List β) : Mat :=
  Mat.of xs.length ys.length fun i j =>
    match xs.get? i, ys.get? j with
    | some x, some y => caller x y
    | _, _ => 0

/-- `as_group_features(key, features)` (patchwork_gp.hpp lines 193-204), with
the result living in the tagged feature type of the dispatch. -/
def asGroupFeatureList {K F : Type} (key : K) (fs : List F) : List (PFeature K F) :=
  fs.map (PFeature.group key)

/-- `as_group_features(grouped_features)` (patchwork_gp.hpp lines 172-191):
flattens a grouped collection of raw features into group-tagged features, in
group order then input order. -/
def asGroupFeaturesOfGrouped {K F : Type} (g : Grouped K (List F)) :
    List (PFeature K F) :=
  g.toList.flatMap fun kv => kv.2.map (PFeature.group kv.1)

/-- View of a constructed `BoundaryFeature` as a dispatch argument. -/
def asPFeatureBoundary {K F : Type} (b : BoundaryFeature K F) : PFeature K F :=
  PFeature.boundary b.lhs b.rhs b.feature

/-- The multi-group branch of
`PatchworkGaussianProcess::_predict_impl` (patchwork_gp.hpp lines 464-600),
followed statement by statement.  `ldlt` models Eigen's `.ldlt()` (an
external numeric routine producing a factorization).  `Option` failures
correspond to the source's assert failures and out-of-range map accesses.
The source also computes `obs_vectors` (line 468) and
`C_bb_inv_C_bd_information` (lines 552-559) and uses neither in the result;
they are omitted here. -/
def predictMultiGroup {K F M : Type} [LinearOrder K] (k : F → F → ℝ)
    (ldlt : Mat → Factorization) (pf : PatchworkFunctions K F)
    (iface : GPInterface F M) (fitModels : Grouped K M) (features : List F) :
    Option JointDistribution := do
  let getObsVector := fun (m : M) => (iface.predict m (iface.trainFeatures m)).mean
  let boundaryFeaturesRaw ← buildBoundaryFeatures pf.boundary fitModels.keys
  let boundaryFeatures := boundaryFeaturesRaw.map asPFeatureBoundary
  let caller := fun (x y : PFeature K F) => (patchworkCall k x y).getD 0
  let covMat := fun (xs ys : List (PFeature K F)) => computeCovarianceMatrix caller xs ys
  let C_bb := covMat boundaryFeatures boundaryFeatures
  let C_bb_ldlt := ldlt C_bb
  let C_dd := fitModels.apply fun _ m => iface.trainCovariance m
  let C_db := fitModels.apply fun key m =>
    covMat (asGroupFeatureList key (iface.trainFeatures m)) boundaryFeatures
  let C_dd_inv_C_db ← blockSolve C_dd C_db
  let S_bb_inner ← blockInnerProduct C_db C_dd_inv_C_db
  let S_bb := C_bb - S_bb_inner
  let S_bb_ldlt := ldlt S_bb
  let solver := fun (rhs : Grouped K Mat) => do
    let Ai_rhs ← blockSolve C_dd rhs
    let SiCtAi_rhs ← blockAccumulate C_db Ai_rhs fun C_db_i Ai_rhs_i =>
      S_bb_ldlt.solve (C_db_i.transpose.mul Ai_rhs_i)
    let CSiCtAi_rhs := C_db.apply fun _ C_db_i => C_db_i.mul SiCtAi_rhs
    let out ← blockSolve C_dd CSiCtAi_rhs
    pure (out.apply fun key g => g + Ai_rhs.getD key)
  let ys := fitModels.apply fun _ m => getObsVector m
  let information ← solver ys
  let predictGrouper := fun f => pf.nearestGroup C_db.keys (pf.grouper f)
  let grouped := groupByKey predictGrouper features
  let groupFeatures := asGroupFeaturesOfGrouped grouped
  let C_fb := covMat groupFeatures boundaryFeatures
  let C_fb_bb_inv := (C_bb_ldlt.solve C_fb.transpose).transpose
  let crossTranspose := fitModels.apply fun key m =>
    (covMat (asGroupFeatureList key (iface.trainFeatures m)) groupFeatures)
      - (C_db.getD key).mul C_fb_bb_inv.transpose
  let C_dd_inv_cross ← solver crossTranspose
  let mean ← blockInnerProduct crossTranspose information
  let explained ← blockInnerProduct crossTranspose C_dd_inv_cross
  let cov := covMat groupFeatures groupFeatures
      - C_fb_bb_inv.mul C_fb.transpose - explained
  pure ⟨mean, cov⟩

/-- `PatchworkGaussianProcess::_predict_impl` (patchwork_gp.hpp lines
452-601): the single-group shortcut
`if (fit_models.size() == 1) return fit_models.values()[0].predict(features).joint();`
followed by the multi-group Schur-complement algorithm. -/
def predictImpl {K F M : Type} [LinearOrder K] (k : F → F → ℝ)
    (ldlt : Mat → Factorization) (pf : PatchworkFunctions K F)
    (iface : GPInterface F M) (fitModels : Grouped K M) (features : List F) :
    Option JointDistribution :=
  if fitModels.size = 1 then
    fitModels.values.head?.map fun m => iface.predict m features
  else
    predictMultiGroup k ldlt pf iface fitModels features

/-- `PatchworkGaussianProcess::_fit_impl` (patchwork_gp.hpp lines 603-624):
partition the dataset by the grouper and fit one single-group model per
partition (`dataset.group_by(grouper).apply(create_fit_model)`).  The dataset
is the zipped (feature, target) sequence; `fitFn` is the external
single-group fit. -/
def fitImpl {K F M : Type} [LinearOrder K] (grouper : F → K)
    (fitFn : List (F × ℝ) → M) (dataset : List (F × ℝ)) : Grouped K M :=
  (groupByKey (fun xy => grouper xy.1) dataset).apply fun _ ds => fitFn ds

/-- Embedding of `Distribution` (core/distribution.h): mean vector and
(possibly size-zero, i.e. absent) covariance matrix. -/
structure Distribution where
  mean : Mat
  covariance : Mat

/-- `Distribution::has_covariance` (core/distribution.h lines 747-751):
whether the covariance has a positive number of coefficients. -/
def Distribution.has_covariance (d : Distribution) : Bool :=
  decide (0 < d.covariance.size)

/-- `Distribution::get_diagonal` (core/distribution.h lines 753-756):
`has_covariance() ? covariance.diagonal()[i] : NAN`; the `NAN` result is
modelled by `none`. -/
def Distribution.get_diagonal (d : Distribution) (i : ℕ) : Option ℝ :=
  if d.has_covariance then some (d.covariance.diagonal i) else none

/-! Concrete instances used by the witnesses and counterexamples below. -/

/-- A constant base covariance over natural-number features. -/
def kOne : ℕ → ℕ → ℝ := fun _ _ => 1

/-- The factorization of the 1×1 identity matrix. -/
def idFact : Factorization := ⟨Mat.identity 1⟩

/-- Single-key block-diagonal collection of 1×1 identity blocks. -/
def A5 : Grouped ℕ Mat := ⟨[(0, Mat.identity 1)]⟩

/-- Its per-key factorizations. -/
def Af5 : Grouped ℕ Factorization := ⟨[(0, idFact)]⟩

/-- A single-key right-hand side. -/
def B5 : Grouped ℕ Mat := ⟨[(0, Mat.of 1 1 fun _ _ => 4)]⟩

/-- Two-key block-diagonal collection of 1×1 identity blocks. -/
def A5c : Grouped ℕ Mat := ⟨[(0, Mat.identity 1), (1, Mat.identity 1)]⟩

/-- Its per-key factorizations. -/
def Af5c : Grouped ℕ Factorization := ⟨[(0, idFact), (1, idFact)]⟩

/-- A two-key right-hand side with distinguishable blocks. -/
def B5c : Grouped ℕ Mat := ⟨[(0, Mat.of 1 1 fun _ _ => 1), (1, Mat.of 1 1 fun _ _ => 2)]⟩

/-- Single-key grouped matrix collections for the `block_accumulate` witness. -/
def L6 : Grouped ℕ Mat := ⟨[(0, Mat.of 1 1 fun _ _ => 2)]⟩

/-- See `L6`. -/
def R6 : Grouped ℕ Mat := ⟨[(0, Mat.of 1 1 fun _ _ => 3)]⟩

/-- A factorization collection whose key set strictly contains `rhs7`'s. -/
def lhs7 : Grouped ℕ Factorization := ⟨[(0, idFact), (1, idFact)]⟩

/-- A right-hand side with a single key. -/
def rhs7 : Grouped ℕ Mat := ⟨[(0, Mat.of 1 1 fun _ _ => 4)]⟩

/-- A distribution with a nonempty (1×1) covariance. -/
def dEx : Distribution := ⟨Mat.of 1 1 fun _ _ => 0, Mat.of 1 1 fun _ _ => 5⟩

/-- A grouping bundle whose grouper always answers group 0. -/
def pfEx : PatchworkFunctions ℕ ℕ := ⟨fun _ => 0, fun _ _ => [], fun _ q => q⟩

/-- A concrete single-group GP interface over datasets stored as lists. -/
def ifaceEx : GPInterface ℕ (List (ℕ × ℝ)) where
  trainFeatures := fun m => m.map Prod.fst
  trainCovariance := fun _ => idFact
  predict := fun _ qs =>
    ⟨Mat.of qs.length 1 fun _ _ => 0, Mat.of qs.length qs.length fun _ _ => 0⟩

/-- A trivial stand-in for Eigen's `.ldlt()`. -/
def ldltEx : Mat → Factorization := fun _ => idFact

/-! Helper lemmas about `Mat`. -/

/-- Matrices with equal sizes and equal entry functions are equal. -/
theorem Mat.ext_entries {a b : Mat} (hr : a.rows = b.rows) (hc : a.cols = b.cols)
    (he : ∀ i j, a.entry i j = b.entry i j) : a = b := by
  cases a with
  | mk ar ac ae av =>
    cases b with
    | mk br bc be bv =>
      simp only at hr hc he
      subst hr
      subst hc
      have : ae = be := funext fun i => funext fun j => he i j
      subst this
      rfl

theorem Mat.add_rows (a b : Mat) : (a + b).rows = max a.rows b.rows := rfl

theorem Mat.add_cols (a b : Mat) : (a + b).cols = max a.cols b.cols := rfl

theorem Mat.add_entry (a b : Mat) (i j : ℕ) :
    (a + b).entry i j = a.entry i j + b.entry i j := rfl

theorem Mat.zero_rows : (0 : Mat).rows = 0 := rfl

theorem Mat.zero_cols : (0 : Mat).cols = 0 := rfl

theorem Mat.zero_entry (i j : ℕ) : (0 : Mat).entry i j = 0 := by
  show (Mat.of 0 0 fun _ _ => 0).entry i j = 0
  simp [Mat.of]

theorem Mat.mul_rows (a b : Mat) : (a.mul b).rows = a.rows := rfl

theorem Mat.mul_cols (a b : Mat) : (a.mul b).cols = b.cols := rfl

theorem Mat.mul_entry (a b : Mat) (i j : ℕ) :
    (a.mul b).entry i j = ∑ t ∈ Finset.range a.cols, a.entry i t * b.entry t j := rfl

theorem Mat.of_rows (r c : ℕ) (f : ℕ → ℕ → ℝ) : (Mat.of r c f).rows = r := rfl

theorem Mat.of_cols (r c : ℕ) (f : ℕ → ℕ → ℝ) : (Mat.of r c f).cols = c := rfl

theorem Mat.of_entry (r c : ℕ) (f : ℕ → ℕ → ℝ) (i j : ℕ) :
    (Mat.of r c f).entry i j = if i < r ∧ j < c then f i j else 0 := rfl

theorem Mat.matAddZero (a : Mat) : a + 0 = a := by
  refine Mat.ext_entries ?_ ?_ ?_
  · simp [Mat.add_rows, Mat.zero_rows]
  · simp [Mat.add_cols, Mat.zero_cols]
  · intro i j
    simp [Mat.add_entry, Mat.zero_entry]

theorem Mat.matAddAssoc (a b c : Mat) : a + b + c = a + (b + c) := by
  refine Mat.ext_entries ?_ ?_ ?_
  · simp [Mat.add_rows, Nat.max_assoc]
  · simp [Mat.add_cols, Nat.max_assoc]
  · intro i j
    simp [Mat.add_entry, add_assoc]

theorem Mat.listSum_nil : Mat.listSum [] = 0 := rfl

theorem Mat.listSum_cons (m : Mat) (l : List Mat) :
    Mat.listSum (m :: l) = m + Mat.listSum l := rfl

/-- Folding `+ g x` from `a` over a list is `a` plus the sum of the images. -/
theorem foldlAddListSum {α : Type} (g : α → Mat) (l : List α) (a : Mat) :
    l.foldl (fun acc x => acc + g x) a = a + Mat.listSum (l.map g) := by
  induction l generalizing a with
  | nil => simp [Mat.listSum_nil, Mat.matAddZero]
  | cons x rest ih =>
      rw [List.foldl_cons, ih, List.map_cons, Mat.listSum_cons, Mat.matAddAssoc]

/-- `Mat.mul` is associative (true for the dynamic embedding without any
shape hypotheses, because out-of-range entries are zero). -/
theorem Mat.mulAssoc (a b c : Mat) : (a.mul b).mul c = a.mul (b.mul c) := by
  refine Mat.ext_entries rfl rfl ?_
  intro i j
  simp only [Mat.mul_entry, Mat.mul_cols, Mat.mul_rows]
  simp only [Finset.sum_mul, Finset.mul_sum]
  rw [Finset.sum_comm]
  refine Finset.sum_congr rfl fun t _ => Finset.sum_congr rfl fun s _ => by ring

/-- Multiplying by the `n × n` identity on the left is the identity on
matrices with `n` rows. -/
theorem Mat.identityMul (n : ℕ) (b : Mat) (h : b.rows = n) :
    (Mat.identity n).mul b = b := by
  refine Mat.ext_entries ?_ rfl ?_
  · simp [Mat.mul_rows, Mat.identity, Mat.of_rows, h]
  · intro i j
    simp only [Mat.mul_entry, Mat.identity, Mat.of_cols, Mat.of_entry]
    by_cases hi : i < n
    · have : ∀ t ∈ Finset.range n,
          (if i < n ∧ t < n then (if i = t then (1 : ℝ) else 0) else 0) * b.entry t j
            = if i = t then b.entry t j else 0 := by
        intro t ht
        rw [Finset.mem_range] at ht
        by_cases he : i = t
        · simp [hi, ht, he]
        · simp [he]
      rw [Finset.sum_congr rfl this]
      have hmem : i ∈ Finset.range n := Finset.mem_range.mpr hi
      rw [Finset.sum_ite_eq (Finset.range n) i (fun t => b.entry t j), if_pos hmem]
    · have hz : b.entry i j = 0 := b.valid i j (Or.inl (by omega))
      have : ∀ t ∈ Finset.range n,
          (if i < n ∧ t < n then (if i = t then (1 : ℝ) else 0) else 0) * b.entry t j = 0 := by
        intro t _
        simp [hi]
      rw [Finset.sum_congr rfl this, Finset.sum_const_zero, hz]

/-! Helper lemmas about `Grouped` and the block primitives. -/

/-- A key occurring among the first components makes `lookupList` succeed. -/
theorem lookupList_isSome_of_mem {K V : Type} [DecidableEq K]
    (l : List (K × V)) (k : K) (h : k ∈ l.map Prod.fst) :
    (lookupList l k).isSome = true := by
  induction l with
  | nil => simp at h
  | cons kv rest ih =>
      rw [List.map_cons, List.mem_cons] at h
      by_cases he : kv.1 = k
      · simp [lookupList, he]
      · rcases h with h | h
        · exact absurd h.symm he
        · simp [lookupList, he, ih h]

theorem Grouped.mem_keys_isSome {K V : Type} [DecidableEq K]
    (g : Grouped K V) (k : K) (h : k ∈ g.keys) : (g.get? k).isSome = true :=
  lookupList_isSome_of_mem g.toList k h

theorem Grouped.keys_apply {K V W : Type} (g : Grouped K V) (f : K → V → W) :
    (g.apply f).keys = g.keys := by
  simp [Grouped.apply, Grouped.keys]

theorem Grouped.size_apply {K V W : Type} (g : Grouped K V) (f : K → V → W) :
    (g.apply f).size = g.size := by
  simp [Grouped.apply, Grouped.size]

theorem Grouped.size_eq_keys_length {K V : Type} (g : Grouped K V) :
    g.size = g.keys.length := by
  simp [Grouped.size, Grouped.keys]

theorem Grouped.get?_apply {K V W : Type} [DecidableEq K]
    (g : Grouped K V) (f : K → V → W) (k : K) :
    (g.apply f).get? k = (g.get? k).map (f k) := by
  show lookupList (g.toList.map fun kv => (kv.1, f kv.1 kv.2)) k
      = (lookupList g.toList k).map (f k)
  induction g.toList with
  | nil => rfl
  | cons kv rest ih =>
      by_cases he : kv.1 = k
      · subst he
        simp [lookupList]
      · simp [lookupList, he, ih]

theorem Grouped.getD_apply {K V W : Type} [DecidableEq K] [Inhabited V] [Inhabited W]
    {g : Grouped K V} (f : K → V → W) {k : K} (h : k ∈ g.keys) :
    (g.apply f).getD k = f k (g.getD k) := by
  have hs := Grouped.mem_keys_isSome g k h
  rw [Grouped.getD, Grouped.get?_apply]
  obtain ⟨v, hv⟩ := Option.isSome_iff_exists.mp hs
  rw [hv]
  simp [Grouped.getD, hv]

/-- With duplicate-free keys, the values are the lookups of the keys in
order. -/
theorem valuesListEq {K V : Type} [DecidableEq K] [Inhabited V]
    (l : List (K × V)) (hnd : (l.map Prod.fst).Nodup) :
    l.map Prod.snd = (l.map Prod.fst).map fun k => (lookupList l k).getD default := by
  induction l with
  | nil => rfl
  | cons kv rest ih =>
      rw [List.map_cons] at hnd
      obtain ⟨hnotmem, hnd2⟩ := List.nodup_cons.mp hnd
      rw [List.map_cons, List.map_cons, List.map_cons]
      congr 1
      · simp [lookupList]
      · rw [ih hnd2]
        refine List.map_congr_left ?_
        intro k hk
        have hne : kv.1 ≠ k := fun he => hnotmem (he ▸ hk)
        simp [lookupList, hne]

theorem Grouped.values_eq_map_getD {K V : Type} [DecidableEq K] [Inhabited V]
    (g : Grouped K V) (hnd : g.keys.Nodup) :
    g.values = g.keys.map g.getD := by
  have := valuesListEq g.toList hnd
  simpa [Grouped.values, Grouped.keys, Grouped.getD, Grouped.get?] using this

/-- The specification of `block_accumulate` on identical nonempty key
sequences: it computes the sum over all keys of `f(lhs[key], rhs[key])`. -/
theorem blockAccumulate_eq {K X Y : Type} [DecidableEq K] [Inhabited X] [Inhabited Y]
    (lhs : Grouped K X) (rhs : Grouped K Y) (f : X → Y → Mat)
    (hk : lhs.keys = rhs.keys) (hne : lhs.keys ≠ []) :
    blockAccumulate lhs rhs f
      = some (Mat.listSum (lhs.keys.map fun k => f (lhs.getD k) (rhs.getD k))) := by
  have hsize : lhs.size = rhs.size := by
    rw [Grouped.size_eq_keys_length, Grouped.size_eq_keys_length, hk]
  have hpos : 0 < lhs.size := by
    rw [Grouped.size_eq_keys_length]
    exact List.length_pos.mpr hne
  have hall : (lhs.toList.all fun kv => (rhs.get? kv.1).isSome) = true := by
    rw [List.all_eq_true]
    intro kv hkv
    have hmem : kv.1 ∈ lhs.keys := List.mem_map_of_mem Prod.fst hkv
    rw [hk] at hmem
    simpa using Grouped.mem_keys_isSome rhs kv.1 hmem
  rw [blockAccumulate, if_pos ⟨hsize, hpos, hall⟩]
  obtain ⟨k0, rest, hkeys⟩ : ∃ k0 rest, lhs.keys = k0 :: rest := by
    cases h : lhs.keys with
    | nil => exact absurd h hne
    | cons a l => exact ⟨a, l, rfl⟩
  rw [hkeys]
  simp only [List.head?_cons, List.tail_cons, Option.map_some']
  rw [foldlAddListSum]
  simp only [List.map_cons, Mat.listSum_cons]

/-- Every ordered pair produced by the `i < j` double loop over a
duplicate-free group list has distinct components. -/
theorem pairsAfter_ne {K : Type} {groups : List K} (hnd : groups.Nodup) :
    ∀ p ∈ pairsAfter groups, p.1 ≠ p.2 := by
  induction groups with
  | nil =>
      intro p hp
      simp [pairsAfter] at hp
  | cons g rest ih =>
      intro p hp
      obtain ⟨hg, hnd2⟩ := List.nodup_cons.mp hnd
      rw [pairsAfter, List.mem_append] at hp
      rcases hp with hp | hp
      · rw [List.mem_map] at hp
        obtain ⟨h, hh, rfl⟩ := hp
        intro he
        have hgh : g = h := he
        apply hg
        rw [hgh]
        exact hh
      · exact ih hnd2 p hp

/-- C1: the extended covariance evaluator applies the dispatch table
exactly: group/group pairs give `k` on equal keys and `0` otherwise;
group/boundary pairs give `+k` on the boundary's lhs key, `-k` on its rhs
key, `0` otherwise; boundary/boundary pairs give `2k` for the identical
ordered pair, `+k` when exactly one of the lhs/rhs sides matches and the
other side is distinct, `-k` when a lhs matches the other's rhs (either
way round) and the remaining sides differ, and `0` when no side matches. -/
theorem claim_C1_dispatch_table {K F : Type} [DecidableEq K] (k : F → F → ℝ) :
    (∀ (kx ky : K) (fx fy : F),
        patchworkCall k (PFeature.group kx fx) (PFeature.group ky fy)
          = some (if kx = ky then k fx fy else 0))
    ∧ (∀ (kx yl yr : K) (fx fy : F), yl ≠ yr →
        (kx = yl →
          patchworkCall k (PFeature.group kx fx) (PFeature.boundary yl yr fy)
            = some (k fx fy))
        ∧ (kx = yr →
          patchworkCall k (PFeature.group kx fx) (PFeature.boundary yl yr fy)
            = some (-(k fx fy)))
        ∧ (kx ≠ yl → kx ≠ yr →
          patchworkCall k (PFeature.group kx fx) (PFeature.boundary yl yr fy)
            = some 0))
    ∧ (∀ (xl xr yl yr : K) (fx fy : F), xl ≠ xr → yl ≠ yr →
        (xl = yl → xr = yr →
          patchworkCall k (PFeature.boundary xl xr fx) (PFeature.boundary yl yr fy)
            = some (2 * k fx fy))
        ∧ (xl = yl → xr ≠ yr →
          patchworkCall k (PFeature.boundary xl xr fx) (PFeature.boundary yl yr fy)
            = some (k fx fy))
        ∧ (xl ≠ yl → xr = yr →
          patchworkCall k (PFeature.boundary xl xr fx) (PFeature.boundary yl yr fy)
            = some (k fx fy))
        ∧ (xl = yr → xr ≠ yl →
          patchworkCall k (PFeature.boundary xl xr fx) (PFeature.boundary yl yr fy)
            = some (-(k fx fy)))
        ∧ (xr = yl → xl ≠ yr →
          patchworkCall k (PFeature.boundary xl xr fx) (PFeature.boundary yl yr fy)
            = some (-(k fx fy)))
        ∧ (xl ≠ yl → xr ≠ yr → xl ≠ yr → xr ≠ yl →
          patchworkCall k (PFeature.boundary xl xr fx) (PFeature.boundary yl yr fy)
            = some 0)) := by
  refine ⟨fun kx ky fx fy => rfl, ?_, ?_⟩
  · intro kx yl yr fx fy hy
    refine ⟨?_, ?_, ?_⟩
    · intro h
      subst h
      simp [patchworkCall]
    · intro h
      subst h
      have hne : kx ≠ yl := fun he => hy he.symm
      simp [patchworkCall, hne]
    · intro h1 h2
      simp [patchworkCall, h1, h2]
  · intro xl xr yl yr fx fy hx hy
    refine ⟨?_, ?_, ?_, ?_, ?_, ?_⟩
    · intro h1 h2
      subst h1
      subst h2
      simp [patchworkCall]
    · intro h1 h2
      subst h1
      simp [patchworkCall, h2]
    · intro h1 h2
      subst h2
      simp [patchworkCall, h1]
    · intro h1 h2
      subst h1
      have hc1 : xl ≠ yl := fun he => hy he.symm
      have hc3 : xr ≠ xl := fun he => hx he.symm
      simp [patchworkCall, hc1, hc3, h2]
    · intro h1 h2
      subst h1
      simp [patchworkCall, hx, hy, h2]
    · intro h1 h2 h3 h4
      simp [patchworkCall, h1, h2, h3, h4]

/-- Witness for C1 at concrete keys and features. -/
theorem claim_C1_dispatch_table_witness :
    patchworkCall kOne (PFeature.group (0 : ℕ) (0 : ℕ)) (PFeature.boundary 1 2 0)
      = some 0 :=
  ((claim_C1_dispatch_table kOne).2.1 0 1 2 0 0 (by decide)).2.2 (by decide) (by decide)

/-- C3 (code bug): the boundary/boundary dispatch returns `0` for a pair of
boundary features whose ordered key pairs are full swaps of one another
(`(0,1)` against `(0,1)` after swapping the first argument to `(1,0)`), so
`cov(B(a,b,f), x) = -cov(B(b,a,f), x)` fails at `x = B(a,b,g)`:
the left side is `2·k = 2` while the right side is `-0 = 0`, although the
documented semantics (a boundary feature is `model_lhs − model_rhs`)
demands `-2·k` for the swapped pair. -/
theorem claim_C3_swapped_boundary_code_bug :
    patchworkCall kOne (PFeature.boundary 0 1 5) (PFeature.boundary 0 1 5) = some 2
    ∧ patchworkCall kOne (PFeature.boundary 1 0 5) (PFeature.boundary 0 1 5) = some 0
    ∧ (2 : ℝ) ≠ -0 := by
  refine ⟨?_, ?_, by norm_num⟩
  · norm_num [patchworkCall, kOne]
  · norm_num [patchworkCall, kOne]

/-- C4: with more than one group and a boundary function that returns the
empty sequence for every pair, `build_boundary_features` hits its
`assert(boundary_features.size() > 0)` and fails instead of returning a
zero-size boundary system. -/
theorem claim_C4_degenerate_boundary {K F : Type} [DecidableEq K]
    (boundaryFn : K → K → List F) (groups : List K)
    (hmulti : 2 ≤ groups.length) (hempty : ∀ x y, boundaryFn x y = []) :
    buildBoundaryFeatures boundaryFn groups = none := by
  have hnil : buildBoundaryFeaturesList boundaryFn groups = [] := by
    unfold buildBoundaryFeaturesList
    simp [hempty, asBoundaryFeatures]
  simp [buildBoundaryFeatures, hnil]

/-- Witness for C4: two groups, empty boundary function. -/
theorem claim_C4_degenerate_boundary_witness :
    buildBoundaryFeatures (fun _ _ => ([] : List ℕ)) [0, 1] = none :=
  claim_C4_degenerate_boundary _ _ (by decide) (fun _ _ => rfl)

/-- The boundary/boundary `if` chain is invariant under exchanging the roles
of the matching-side conditions, as happens when the two arguments swap. -/
theorem iteSym {α : Type} (p q r s : Prop) [Decidable p] [Decidable q]
    [Decidable r] [Decidable s] (A B C Z : α) :
    (if p ∧ q then A else if p ∧ ¬q then B else if ¬p ∧ q then B
      else if r ∧ ¬s then C else if ¬r ∧ s then C else Z)
    = (if p ∧ q then A else if p ∧ ¬q then B else if ¬p ∧ q then B
      else if s ∧ ¬r then C else if ¬s ∧ r then C else Z) := by
  by_cases hp : p <;> by_cases hq : q <;> by_cases hr : r <;> by_cases hs : s <;>
    simp [hp, hq, hr, hs]

/-- C8: the extended evaluator is symmetric in its two arguments for every
combination of raw, group-tagged and boundary-tagged features (given the
contractual symmetry of the base covariance), and on two raw features it is
exactly the plain base evaluator. -/
theorem claim_C8_symmetry {K F : Type} [DecidableEq K] (k : F → F → ℝ)
    (hsym : ∀ a b, k a b = k b a) :
    (∀ x y : PFeature K F, patchworkCall k x y = patchworkCall k y x)
    ∧ (∀ fx fy : F, patchworkCall k (PFeature.raw fx : PFeature K F) (PFeature.raw fy)
        = some (k fx fy)) := by
  refine ⟨?_, fun fx fy => rfl⟩
  intro x y
  cases x with
  | raw fx =>
      cases y with
      | raw fy => simp only [patchworkCall]; rw [hsym]
      | group ky fy => rfl
      | boundary yl yr fy => rfl
  | group kx fx =>
      cases y with
      | raw fy => rfl
      | group ky fy =>
          simp only [patchworkCall]
          by_cases h : kx = ky
          · subst h
            simp [hsym fx fy]
          · have hs : ky ≠ kx := fun he => h he.symm
            simp [h, hs]
      | boundary yl yr fy => rfl
  | boundary xl xr fx =>
      cases y with
      | raw fy => rfl
      | group ky fy => rfl
      | boundary yl yr fy =>
          simp only [patchworkCall, Option.some.injEq]
          rw [hsym fx fy]
          simp only [ne_eq, show ((yl = xl)) = ((xl = yl)) from propext eq_comm,
            show ((yr = xr)) = ((xr = yr)) from propext eq_comm,
            show ((yl = xr)) = ((xr = yl)) from propext eq_comm,
            show ((yr = xl)) = ((xl = yr)) from propext eq_comm]
          exact iteSym (xl = yl) (xr = yr) (xl = yr) (xr = yl) _ _ _ _

/-- Witness for C8 at concrete features. -/
theorem claim_C8_symmetry_witness :
    patchworkCall kOne (PFeature.group (0 : ℕ) (3 : ℕ)) (PFeature.boundary 0 1 4)
      = patchworkCall kOne (PFeature.boundary (0 : ℕ) 1 (4 : ℕ)) (PFeature.group 0 3) :=
  (claim_C8_symmetry kOne (fun _ _ => rfl)).1
    (PFeature.group 0 3) (PFeature.boundary 0 1 4)

/-- C9 counterexample: the public constructor `as_boundary_feature` happily
produces a `BoundaryFeature` whose two keys are equal, so `lhs != rhs` is not
an invariant of every constructed boundary feature. -/
theorem claim_C9_counterexample :
    (asBoundaryFeature (0 : ℕ) 0 (7 : ℕ)).lhs = (asBoundaryFeature (0 : ℕ) 0 (7 : ℕ)).rhs :=
  rfl

/-- C9 (amended): boundary features built by `build_boundary_features` from a
duplicate-free group list do satisfy `lhs != rhs`, because the `i < j` loop
only pairs distinct positions of a duplicate-free key sequence; the bare
constructors enforce nothing. -/
theorem claim_C9_build_boundary_distinct {K F : Type} [DecidableEq K]
    (boundaryFn : K → K → List F) (groups : List K) (hnd : groups.Nodup) :
    ∀ b ∈ buildBoundaryFeaturesList boundaryFn groups, b.lhs ≠ b.rhs := by
  intro b hb
  unfold buildBoundaryFeaturesList at hb
  rw [List.mem_flatMap] at hb
  obtain ⟨p, hp, hbp⟩ := hb
  unfold asBoundaryFeatures at hbp
  rw [List.mem_map] at hbp
  obtain ⟨f, _, rfl⟩ := hbp
  exact pairsAfter_ne hnd p hp

/-- Witness for C9 (amended) on a concrete two-group build. -/
theorem claim_C9_build_boundary_distinct_witness :
    (asBoundaryFeature (0 : ℕ) 1 (7 : ℕ)).lhs ≠ (asBoundaryFeature (0 : ℕ) 1 (7 : ℕ)).rhs :=
  claim_C9_build_boundary_distinct (fun _ _ => [7]) [0, 1] (by decide)
    (asBoundaryFeature 0 1 7) (by decide)

/-- C10: `get_diagonal(i)` yields the `i`-th diagonal coefficient of the
covariance whenever the covariance is present (positive size), and the NaN
marker (modelled as `none`) when it is absent. -/
theorem claim_C10_get_diagonal (d : Distribution) (i : ℕ) :
    (0 < d.covariance.size → d.get_diagonal i = some (d.covariance.diagonal i))
    ∧ (d.covariance.size = 0 → d.get_diagonal i = none) := by
  constructor
  · intro h
    simp [Distribution.get_diagonal, Distribution.has_covariance, h]
  · intro h
    simp [Distribution.get_diagonal, Distribution.has_covariance, h]

/-- Witness for C10 on a distribution with a 1×1 covariance. -/
theorem claim_C10_get_diagonal_witness :
    dEx.get_diagonal 0 = some (dEx.covariance.diagonal 0) :=
  (claim_C10_get_diagonal dEx 0).1 (by decide)

/-- C6: `block_accumulate` over nonempty collections with identical key
sequences and a shape-uniform apply-function returns the sum over all keys of
`f(lhs[key], rhs[key])`. -/
theorem claim_C6_block_accumulate {K X Y : Type} [DecidableEq K] [Inhabited X]
    [Inhabited Y] (lhs : Grouped K X) (rhs : Grouped K Y) (f : X → Y → Mat)
    (hk : lhs.keys = rhs.keys) (hne : lhs.keys ≠ []) (r c : ℕ)
    (hshape : ∀ k ∈ lhs.keys, (f (lhs.getD k) (rhs.getD k)).rows = r ∧
        (f (lhs.getD k) (rhs.getD k)).cols = c) :
    blockAccumulate lhs rhs f
      = some (Mat.listSum (lhs.keys.map fun k => f (lhs.getD k) (rhs.getD k))) :=
  blockAccumulate_eq lhs rhs f hk hne

/-- Witness for C6 on one-key collections of 1×1 blocks. -/
theorem claim_C6_block_accumulate_witness :
    blockAccumulate L6 R6 Mat.mul
      = some (Mat.listSum (L6.keys.map fun k => Mat.mul (L6.getD k) (R6.getD k))) :=
  claim_C6_block_accumulate L6 R6 Mat.mul rfl (by decide) 1 1 (by
    intro k hk
    have hk0 : k = 0 := by
      simpa [L6, Grouped.keys] using hk
    subst hk0
    exact ⟨rfl, rfl⟩)

/-- C7 (amended): `block_solve` performs no key-set validation of its own.
It iterates only the keys of `rhs`: whenever every `rhs` key is present in
`lhs` it succeeds — even if `lhs` has extra keys — returning a collection
with exactly `rhs`'s keys whose value at each key is `lhs[key]`'s
factorization applied to `rhs[key]`; it fails (the `lhs.at(key)` lookup
throws) exactly when some `rhs` key is absent from `lhs`. -/
theorem claim_C7_block_solve {K : Type} [DecidableEq K]
    (lhs : Grouped K Factorization) (rhs : Grouped K Mat) :
    ((rhs.toList.all fun kv => (lhs.get? kv.1).isSome) = true →
      blockSolve lhs rhs = some (rhs.apply fun j v => (lhs.getD j).solve v)
      ∧ (rhs.apply fun j v => (lhs.getD j).solve v).keys = rhs.keys
      ∧ ∀ k ∈ rhs.keys,
          (rhs.apply fun j v => (lhs.getD j).solve v).getD k
            = (lhs.getD k).solve (rhs.getD k))
    ∧ ((rhs.toList.all fun kv => (lhs.get? kv.1).isSome) = false →
      blockSolve lhs rhs = none) := by
  constructor
  · intro h
    refine ⟨?_, Grouped.keys_apply rhs _, ?_⟩
    · rw [blockSolve, if_pos h]
    · intro k hk
      exact Grouped.getD_apply _ hk
  · intro h
    rw [blockSolve, if_neg (by simp [h])]

/-- Witness for C7 (amended): a successful concrete solve. -/
theorem claim_C7_block_solve_witness :
    blockSolve lhs7 rhs7 = some (rhs7.apply fun j v => (lhs7.getD j).solve v) :=
  ((claim_C7_block_solve lhs7 rhs7).1 (by decide)).1

/-- C7 counterexample: the key sets differ (`lhs` owns key 1, `rhs` does
not), yet `block_solve` succeeds instead of failing with an error. -/
theorem claim_C7_counterexample :
    (1 : ℕ) ∈ lhs7.keys ∧ (1 : ℕ) ∉ rhs7.keys ∧ (blockSolve lhs7 rhs7).isSome = true := by
  refine ⟨by decide, by decide, ?_⟩
  rw [blockSolve, if_pos (by decide)]
  rfl

/-- C5 (amended): with a per-key factorization collection that inverts each
block of `A` and shape-consistent operands, `block_solve` applies each
inverse per key (so `A[key]·block_solve(A,B)[key] = B[key]` for every key),
and `block_product(A, block_solve(A, B))` is the single matrix
`Σ_key B[key]` — not the `Grouped` collection `B`. -/
theorem claim_C5_block_solve_product {K : Type} [DecidableEq K] (n : ℕ)
    (A : Grouped K Mat) (Af : Grouped K Factorization) (B : Grouped K Mat)
    (hkA : A.keys = B.keys) (hkF : Af.keys = B.keys) (hne : B.keys ≠ [])
    (hnd : B.keys.Nodup)
    (hinv : ∀ k ∈ B.keys, (A.getD k).mul (Af.getD k).solveMat = Mat.identity n)
    (hrows : ∀ k ∈ B.keys, (B.getD k).rows = n) :
    blockSolve Af B = some (B.apply fun j v => (Af.getD j).solve v)
    ∧ (∀ k ∈ B.keys,
        (A.getD k).mul ((B.apply fun j v => (Af.getD j).solve v).getD k) = B.getD k)
    ∧ blockProduct A (B.apply fun j v => (Af.getD j).solve v)
        = some (Mat.listSum B.values) := by
  have hall : (B.toList.all fun kv => (Af.get? kv.1).isSome) = true := by
    rw [List.all_eq_true]
    intro kv hkv
    have hmem : kv.1 ∈ B.keys := List.mem_map_of_mem Prod.fst hkv
    rw [← hkF] at hmem
    simpa using Grouped.mem_keys_isSome Af kv.1 hmem
  have hperkey : ∀ k ∈ B.keys,
      (A.getD k).mul ((B.apply fun j v => (Af.getD j).solve v).getD k) = B.getD k := by
    intro k hk
    rw [Grouped.getD_apply _ hk]
    show (A.getD k).mul ((Af.getD k).solveMat.mul (B.getD k)) = B.getD k
    rw [← Mat.mulAssoc, hinv k hk, Mat.identityMul n _ (hrows k hk)]
  refine ⟨?_, hperkey, ?_⟩
  · rw [blockSolve, if_pos hall]
  · rw [blockProduct]
    have hkG : A.keys = (B.apply fun j v => (Af.getD j).solve v).keys := by
      rw [Grouped.keys_apply]
      exact hkA
    have hneA : A.keys ≠ [] := by
      rw [hkA]
      exact hne
    rw [blockAccumulate_eq _ _ _ hkG hneA]
    congr 1
    have hmapeq : (A.keys.map fun k =>
        (A.getD k).mul ((B.apply fun j v => (Af.getD j).solve v).getD k))
        = B.keys.map B.getD := by
      rw [hkA]
      refine List.map_congr_left ?_
      intro k hk
      exact hperkey k hk
    rw [hmapeq, ← Grouped.values_eq_map_getD B hnd]

/-- Witness for C5 (amended) on a one-key identity system. -/
theorem claim_C5_block_solve_product_witness :
    blockSolve Af5 B5 = some (B5.apply fun j v => (Af5.getD j).solve v) :=
  (claim_C5_block_solve_product 1 A5 Af5 B5 rfl rfl (by decide) (by decide)
    (fun k hk => by
      have hk0 : k = 0 := by simpa [B5, Grouped.keys] using hk
      subst hk0
      show (Mat.identity 1).mul (Mat.identity 1) = Mat.identity 1
      exact Mat.identityMul 1 _ rfl)
    (fun k hk => by
      have hk0 : k = 0 := by simpa [B5, Grouped.keys] using hk
      subst hk0
      rfl)).1

/-- C5 counterexample: on a two-key identity system,
`block_product(A, block_solve(A, B))` is the 1×1 matrix `[3]` — the sum of
`B`'s blocks `[1]` and `[2]` — which differs from every block of `B`, so it
is not `B`. -/
theorem claim_C5_counterexample :
    ((blockSolve Af5c B5c).bind fun G => blockProduct A5c G)
      = some (Mat.of 1 1 fun _ _ => 3)
    ∧ (Mat.of 1 1 fun _ _ => 3) ≠ B5c.getD 0
    ∧ (Mat.of 1 1 fun _ _ => 3) ≠ B5c.getD 1 := by
  refine ⟨?_, ?_, ?_⟩
  · have h1 : blockSolve Af5c B5c
        = some ((⟨[(0, (Mat.identity 1).mul (Mat.of 1 1 fun _ _ => 1)),
            (1, (Mat.identity 1).mul (Mat.of 1 1 fun _ _ => 2))]⟩ : Grouped ℕ Mat)) := by
      rw [blockSolve, if_pos (by decide)]
      rfl
    rw [h1, Option.some_bind]
    have h2 : blockProduct A5c (⟨[(0, (Mat.identity 1).mul (Mat.of 1 1 fun _ _ => 1)),
          (1, (Mat.identity 1).mul (Mat.of 1 1 fun _ _ => 2))]⟩ : Grouped ℕ Mat)
        = some ((Mat.identity 1).mul ((Mat.identity 1).mul (Mat.of 1 1 fun _ _ => 1))
            + (Mat.identity 1).mul ((Mat.identity 1).mul (Mat.of 1 1 fun _ _ => 2))) := by
      rw [blockProduct, blockAccumulate, if_pos (by decide)]
      rfl
    rw [h2, Mat.identityMul 1 (Mat.of 1 1 fun _ _ => 1) rfl,
      Mat.identityMul 1 (Mat.of 1 1 fun _ _ => 2) rfl,
      Mat.identityMul 1 (Mat.of 1 1 fun _ _ => 1) rfl,
      Mat.identityMul 1 (Mat.of 1 1 fun _ _ => 2) rfl]
    congr 1
    refine Mat.ext_entries ?_ ?_ ?_
    · simp [Mat.add_rows, Mat.of_rows]
    · simp [Mat.add_cols, Mat.of_cols]
    · intro i j
      by_cases h : i < 1 ∧ j < 1
      · simp [Mat.add_entry, Mat.of_entry, h]
        norm_num
      · have h2 : ¬(i = 0 ∧ j = 0) := by omega
        simp [Mat.add_entry, Mat.of_entry, h, h2]
  · intro h
    have h00 := congrArg (fun m => Mat.entry m 0 0) h
    have h3 : (3 : ℝ) = 1 := by
      simpa [Mat.of_entry, B5c, Grouped.getD, Grouped.get?, lookupList] using h00
    norm_num at h3
  · intro h
    have h00 := congrArg (fun m => Mat.entry m 0 0) h
    have h3 : (3 : ℝ) = 2 := by
      simpa [Mat.of_entry, B5c, Grouped.getD, Grouped.get?, lookupList] using h00
    norm_num at h3

/-- Folding a constant-key insertion into a one-key mapping appends all
items to that key's group. -/
theorem addToGroup_const {K α : Type} [LinearOrder K] (k0 : K) (xs : List α)
    (acc : List α) :
    xs.foldl (fun l x => addToGroup l k0 x) [(k0, acc)] = [(k0, acc ++ xs)] := by
  induction xs generalizing acc with
  | nil => simp
  | cons x rest ih =>
      rw [List.foldl_cons]
      have hstep : addToGroup [(k0, acc)] k0 x = [(k0, acc ++ [x])] := by
        simp [addToGroup]
      rw [hstep, ih]
      simp

/-- Grouping a nonempty list by a constant key function yields the single
group holding the whole list in input order. -/
theorem groupByKey_const {K α : Type} [LinearOrder K] (key : α → K) (k0 : K)
    (hkey : ∀ a, key a = k0) (xs : List α) (hne : xs ≠ []) :
    groupByKey key xs = ⟨[(k0, xs)]⟩ := by
  cases xs with
  | nil => exact absurd rfl hne
  | cons x rest =>
      unfold groupByKey
      congr 1
      simp only [hkey]
      rw [List.foldl_cons]
      have hstep : addToGroup ([] : List (K × List α)) k0 x = [(k0, [x])] := rfl
      rw [hstep, addToGroup_const k0 rest [x]]
      rfl

/-- C2: for a patchwork model whose grouping function always returns one
key, fitting partitions the whole dataset into that single group, and the
patchwork joint prediction takes the single-group shortcut: it equals the
joint prediction of that group's own fitted model, for any query features. -/
theorem claim_C2_single_group {K F M : Type} [LinearOrder K] (k : F → F → ℝ)
    (ldlt : Mat → Factorization) (pf : PatchworkFunctions K F)
    (iface : GPInterface F M) (fitFn : List (F × ℝ) → M)
    (dataset : List (F × ℝ)) (k0 : K)
    (hgroup : ∀ f, pf.grouper f = k0) (hne : dataset ≠ []) (features : List F) :
    predictImpl k ldlt pf iface (fitImpl pf.grouper fitFn dataset) features
      = some (iface.predict (fitFn dataset) features) := by
  have hgb : groupByKey (fun xy : F × ℝ => pf.grouper xy.1) dataset = ⟨[(k0, dataset)]⟩ :=
    groupByKey_const _ k0 (fun a => hgroup a.1) dataset hne
  unfold fitImpl
  rw [hgb]
  rfl

/-- Witness for C2: a constant grouper over a one-point dataset, with the
identity fit. -/
theorem claim_C2_single_group_witness :
    predictImpl kOne ldltEx pfEx ifaceEx (fitImpl pfEx.grouper id [(1, 1)]) [5]
      = some (ifaceEx.predict (id [((1 : ℕ), (1 : ℝ))]) [5]) :=
  claim_C2_single_group kOne ldltEx pfEx ifaceEx id [(1, 1)] 0 (fun _ => rfl)
    (by simp) [5]
